import Mathlib

/-!
Verification of the archive-extraction engine of the `ltv` (LegendasTV)
repository against its natural-language specification.

The embedding translates, from the source:

* `src/legendastv/filetools.py`
  - `extension` (lines 223-229), including the exact behaviour of
    Python's `os.path.splitext` on POSIX paths;
  - `extract_archive` (lines 83-197): member selection, safe-path
    filtering, overwrite skipping, recursion budget threading, output
    listing, and source deletion.  The filesystem is modelled as the set
    of existing file paths (path identity is string identity; the model
    does not resolve `.` / `..` the way a real kernel would, matching the
    purely textual checks the code itself performs);
  - `makedirs` (lines 208-220) and the destination-directory cleanup
    block (lines 155-165), including the cascading behaviour of Python's
    `os.removedirs`, in a separate directory-tree model;
* `src/legendastv/rarcompat.py`
  - `ArchiveFile.__new__` (lines 93-108) with `import_rarfile` abstracted
    to a backend-availability flag, and file content abstracted to the
    outcomes of the two signature sniffs (`zipfile.is_zipfile`,
    `rarfile.is_rarfile`).

Archive opening inside `extract_archive` is abstracted by a `World`
assigning to every path the member list obtained when an existing file at
that path is opened, or an error (all `LegendasTVError` failure kinds are
caught alike by `extract_archive`, so one error suffices there).
Recursion is made structural with a fuel parameter; every theorem is
quantified over (or instantiated at) the fuel, and fuel exhaustion returns
the neutral result.
-/

namespace Ltv

/-! ## Characters and path strings -/

/-- The suffix of `xs` strictly after the last occurrence of `c`
(`xs` itself when `c` does not occur).  This is the building block for
Python's `rfind`-based path splitting. -/
def afterLast (c : Char) (xs : List Char) : List Char :=
  (xs.reverse.takeWhile (fun x => x != c)).reverse

/-- The final path segment (POSIX basename) of `p`, as characters. -/
def segmentOf (p : String) : List Char :=
  afterLast '/' p.data

/-- The `.ext` part of `os.path.splitext(p)` (POSIX rules): the part of
the final segment from its last dot on, provided some non-dot character
of the segment precedes that dot; leading dots of the segment (POSIX
hidden files) never start an extension.  Source: `posixpath.splitext` as
used by `filetools.extension` and `filetools.extract_archive`. -/
def extChars (p : String) : List Char :=
  let rest := (segmentOf p).dropWhile (fun x => x == '.')
  if rest.contains '.' then '.' :: afterLast '.' rest else []

/-- Function `filetools.extension` (lines 223-229):
`os.path.splitext(filepath)[1][1:].lower()`. -/
def extension (p : String) : String :=
  String.mk (((extChars p).drop 1).map Char.toLower)

/-- Root part `os.path.splitext(p)[0]`: `p` with `extChars p` removed from the end.
Used for `path = os.path.splitext(archive)[0]` (line 126). -/
def splitextRoot (p : String) : String :=
  String.mk (p.data.take (p.data.length - (extChars p).length))

/-- Join `os.path.join(path, name)` (POSIX): `name` if absolute; plain
concatenation if `path` is empty or ends in a slash; otherwise insert a
slash.  No normalisation is performed (nor does Python perform any). -/
def joinPath (path name : String) : String :=
  if name.data.head? = some '/' then name
  else if path.data = [] ∨ path.data.getLast? = some '/' then
    String.mk (path.data ++ name.data)
  else
    String.mk (path.data ++ '/' :: name.data)

/-- The unsafe-member test of `extract_archive` line 139:
`name.startswith('/') or name.startswith('../') or '/../' in name`. -/
def unsafePath (name : String) : Bool :=
  "/".data.isPrefixOf name.data || "../".data.isPrefixOf name.data ||
    decide ("/../".data <:+: name.data)

/-- The spec sentence behind claim C7, word for word: the lowercase text
following the last `.` of the final path segment, and the empty string
when the segment has no `.` or its only `.` is the leading hidden-file
dot. -/
def claimExtensionOf (p : String) : String :=
  let seg := segmentOf p
  if ¬ seg.contains '.' ∨ (seg.count '.' = 1 ∧ seg.head? = some '.') then ""
  else String.mk ((afterLast '.' seg).map Char.toLower)

/-- The amended contract for `extension`: lowercase text after the last
`.` of the final segment, empty when the segment contains no `.` beyond
its leading (hidden-file) dots. -/
def specExtensionOf (p : String) : String :=
  let seg := segmentOf p
  if (seg.dropWhile (fun x => x == '.')).contains '.' then
    String.mk ((afterLast '.' seg).map Char.toLower)
  else ""

/-! ## `rarcompat.ArchiveFile.__new__` (lines 93-108)

`zipfile.is_zipfile` and `rarfile.is_rarfile` are content sniffs, so they
are abstracted as attributes of the file.  `import_rarfile` is abstracted
to a flag saying whether any RAR backend can be imported and configured
(when it cannot, `import_rarfile` raises one of its missing-support
errors, lines 69-85 of rarcompat.py — all distinct from the
"Unsupported archive format" message of `ArchiveFile.errmsg`).
`ArchiveFile.rarfile` is a class attribute cached across calls, passed in
and returned as the `rarLoaded` state. -/

/-- A file as `ArchiveFile.__new__` can observe it: its path and the
outcomes of the two magic-byte signature checks on its content. -/
structure AFile where
  name : String
  isZipContent : Bool
  isRarContent : Bool

/-- The two concrete variants `ArchiveFile.__new__` can return. -/
inductive ArchiveKind where
  | zip
  | rar
deriving DecidableEq

/-- Failure kinds of the archive-opening factory, per the spec taxonomy:
`unsupportedFormat` is the `ArchiveFile.errmsg` raise (lines 102, 108);
`missingSupport` stands for the raises inside `import_rarfile` when no
backend is usable (lines 69-85). -/
inductive ArchiveError where
  | unsupportedFormat
  | missingSupport
deriving DecidableEq

/-- Test `filepath.lower().endswith('.rar')` (line 101). -/
def rarNamed (s : String) : Bool :=
  ".rar".data.isSuffixOf (s.data.map Char.toLower)

/-- Factory `ArchiveFile.__new__(cls, filepath)` (rarcompat.py lines 93-108).
`backendOk` abstracts "import_rarfile succeeds"; `rarLoaded` abstracts
`cls.rarfile` being already set.  Returns the outcome together with the
new value of `cls.rarfile`-is-set. -/
def archiveFileNew (backendOk rarLoaded : Bool) (f : AFile) :
    Except ArchiveError ArchiveKind × Bool :=
  if f.isZipContent then (Except.ok ArchiveKind.zip, rarLoaded)
  else if rarLoaded then
    (if f.isRarContent then Except.ok ArchiveKind.rar
     else Except.error ArchiveError.unsupportedFormat, rarLoaded)
  else if ¬ rarNamed f.name then
    (Except.error ArchiveError.unsupportedFormat, rarLoaded)
  else if ¬ backendOk then
    (Except.error ArchiveError.missingSupport, rarLoaded)
  else if f.isRarContent then (Except.ok ArchiveKind.rar, true)
  else (Except.error ArchiveError.unsupportedFormat, true)

/-! ## Directory model for the destination-cleanup block (lines 155-165)

Directories and files are segment lists; containment is list-prefix.
`extractall` is abstracted by the files it wrote before returning or
failing (`written`) and a success flag, since claim C8 is about the
directory bookkeeping around it. -/

/-- A filesystem of directories and files, each a path of segments. -/
structure DirFS where
  dirs : List (List String)
  files : List (List String)
deriving DecidableEq

/-- The non-empty proper prefixes of a segment path. -/
def properPrefixes (p : List String) : List (List String) :=
  ((List.range p.length).map (fun k => p.take k)).filter
    (fun q => decide (q ≠ []))

/-- Function `filetools.makedirs` (lines 208-220) on the directory model:
`os.makedirs` creates every missing ancestor and then the leaf; the
wrapper returns `True` iff the leaf itself was created now
(`FileExistsError` yields `False`). -/
def makedirs (p : List String) (fs : DirFS) : Bool × DirFS :=
  (decide (p ∉ fs.dirs),
   ⟨fs.dirs ++ ((properPrefixes p ++ [p]).filter (fun q => decide (q ∉ fs.dirs))),
    fs.files⟩)

/-- A directory is non-empty when some directory or file lies strictly
below it. -/
def dirNonempty (fs : DirFS) (d : List String) : Bool :=
  fs.dirs.any (fun q => d.isPrefixOf q && decide (q ≠ d)) ||
    fs.files.any (fun q => d.isPrefixOf q && decide (q ≠ d))

/-- Removal `os.rmdir`: remove `d` when it exists and is empty, else fail. -/
def rmdir (d : List String) (fs : DirFS) : Option DirFS :=
  if d ∈ fs.dirs ∧ dirNonempty fs d = false then
    some ⟨fs.dirs.filter (fun q => decide (q ≠ d)), fs.files⟩
  else none

/-- The tail loop of `os.removedirs`: try each ancestor in turn, stopping
silently at the first failure. -/
def removeChain (fs : DirFS) : List (List String) → DirFS
  | [] => fs
  | d :: ds =>
    match rmdir d fs with
    | none => fs
    | some fs2 => removeChain fs2 ds

/-- The proper ancestors of `p`, innermost first — the order
`os.removedirs` visits them after removing the leaf. -/
def parentChain (p : List String) : List (List String) :=
  (((List.range p.length).drop 1).reverse).map (fun k => p.take k)

/-- Cascade `os.removedirs(p)` as called on line 163, wrapped in the
`except OSError: pass` of lines 162-165: remove the leaf if it is empty,
then cascade upward over successively emptied ancestors; any failure is
swallowed. -/
def removedirsSwallowed (p : List String) (fs : DirFS) : DirFS :=
  match rmdir p fs with
  | none => fs
  | some fs2 => removeChain fs2 (parentChain p)

/-- The filesystem after `makedirs` and the writes `extractall` performed
before returning or failing. -/
def afterWrite (p : List String) (written : List (List String))
    (fs : DirFS) : DirFS :=
  ⟨(makedirs p fs).2.dirs, (makedirs p fs).2.files ++ written⟩

/-- The `if members:` block of `extract_archive` (lines 155-165):
`remove = makedirs(path)`, then `af.extractall(...)` (abstracted: writes
`written`, succeeds iff `ok`; on success `remove` is reset), and in the
`finally`, when this call created the leaf and extraction failed, the
swallowed `os.removedirs(path)`.  Returns (success, final filesystem). -/
def extractPhase (members : List String) (p : List String)
    (written : List (List String)) (ok : Bool) (fs : DirFS) : Bool × DirFS :=
  if members.isEmpty then (true, fs)
  else if ok then (true, afterWrite p written fs)
  else (false,
    if (makedirs p fs).1 then removedirsSwallowed p (afterWrite p written fs)
    else afterWrite p written fs)

/-! ## The recursive extractor `extract_archive` (filetools.py lines 83-197)

The filesystem is the list (read: set) of existing file paths.  A static
`World` assigns to every path the member list an archive at that path
would yield when opened, or an opening error; `extract_archive` catches
every `LegendasTVError` the opening can raise alike (lines 117-123), so
a single error value suffices.  Recursion is made structural with a fuel
parameter; fuel exhaustion returns the neutral result. -/

/-- Archive contents by path.  A path's content is fixed: extracting a
member always writes the same bytes, so what an archive at that path
contains does not change over a run. -/
structure World where
  arch : String → Except Unit (List String)

/-- Opening `rarcompat.ArchiveFile(archive)` as `extract_archive` sees it: a
missing file or a file that is no supported archive fails, an existing
archive yields its member list (line 129, `af.namelist()`). -/
def openArchive (w : World) (fs : List String) (archive : String) :
    Except Unit (List String) :=
  if archive ∈ fs then w.arch archive else Except.error ()

/-- The `extlist`, `keep`, `overwrite` and `safe` parameters.
`extlist = []` plays the role of Python's falsy `None` / empty list
(after a comma-separated string has been split, line 132-133). -/
structure Cfg where
  extlist : List String
  keep : Bool
  overwrite : Bool
  safe : Bool

/-- The observable outcome of one `extract_archive` call: `outs` is the
returned file list and `budget` the returned remaining budget (the pair
returned when `_root=False`, lines 194-195); `fs` the files existing
afterwards; `trace` one entry per recursive invocation made anywhere in
the call tree — the nested path and the budget handed to it, in
invocation order; `warns` the unsafe-member warnings logged (line 140);
`written` every file path actually extracted (passed to `extractall`). -/
structure Res where
  outs : List String
  budget : Int
  fs : List String
  trace : List (String × Int)
  warns : List String
  written : List String
deriving DecidableEq

/-- Resolution `path if path is not None else os.path.splitext(archive)[0]`
(lines 125-126); an explicit empty string stays empty (current dir). -/
def resolvePath (path? : Option String) (archive : String) : String :=
  match path? with
  | some p => p
  | none => splitextRoot archive

/-- Test `not extlist or ext in extlist` (lines 147 and 172). -/
def matchesExtlist (extlist : List String) (ext : String) : Bool :=
  extlist.isEmpty || extlist.contains ext

/-- Test `extension(s) in ('zip', 'rar')` (lines 150 and 175). -/
def isArchiveName (s : String) : Bool :=
  extension s == "zip" || extension s == "rar"

/-- The safety filter applied to the member list (lines 138-143): each
unsafe name is removed from `names` (one warning each) before any other
processing; safe names are untouched.  `names.remove(name)` over a copy
of the list is exactly a filter, since only unsafe occurrences are
removed and every occurrence of an unsafe value is unsafe. -/
def keptNames (cfg : Cfg) (names0 : List String) : List String :=
  if cfg.safe then names0.filter (fun n => !unsafePath n) else names0

/-- The warnings of line 140: one per dropped member, in list order. -/
def levelWarns (cfg : Cfg) (names0 : List String) : List String :=
  if cfg.safe then names0.filter (fun n => unsafePath n) else []

/-- The member-selection loop (lines 136-153) over the safety-filtered
names: skip members already present when `overwrite` is false (line 144,
`continue` keeps them in `names`), queue members matching `extlist`, and
queue up to `archives` nested archives (`archives = recursion`,
line 137, decremented per queued nested archive, line 152). -/
def selectMembers (path : String) (cfg : Cfg) (fs : List String) :
    List String → Int → List String
  | [], _ => []
  | n :: ns, archives =>
    if cfg.overwrite = false ∧ joinPath path n ∈ fs then
      selectMembers path cfg fs ns archives
    else if matchesExtlist cfg.extlist (extension n) then
      n :: selectMembers path cfg fs ns archives
    else if archives ≠ 0 ∧ isArchiveName n then
      n :: selectMembers path cfg fs ns (archives - 1)
    else
      selectMembers path cfg fs ns archives

/-- The files `af.extractall(path, members=members)` writes (line 158):
each selected member at its joined destination path. -/
def extractWrites (path : String) (cfg : Cfg) (fs names : List String)
    (r : Int) : List String :=
  (selectMembers path cfg fs names r).map (fun n => joinPath path n)

/-- The file set after the extraction step (lines 155-165): unchanged
when no member is selected (the `if members:` guard), else grown by the
written files.  Directory bookkeeping is modelled separately (claim C8);
in this model `extractall` always succeeds. -/
def fsAfterExtract (path : String) (cfg : Cfg) (fs names : List String)
    (r : Int) : List String :=
  if (selectMembers path cfg fs names r).isEmpty then fs
  else fs ++ extractWrites path cfg fs names r

/-- The output-listing loop (lines 167-184) with its recursive descent:
`f` abstracts the call `extract_archive(filepath, path=None,
extlist, keep, overwrite, safe, recursion - 1, _root=False)` over its
three varying arguments (archive path, budget, file set).  Listing a
member (line 172) and descending into it (line 175) are two independent
`if`s; the descent adopts the returned budget for the next sibling. -/
def outLoop (f : String → Int → List String → Res) (path : String)
    (cfg : Cfg) : List String → Int → List String → Res
  | [], r, fs => ⟨[], r, fs, [], [], []⟩
  | n :: ns, r, fs =>
    let fp := joinPath path n
    let here := if matchesExtlist cfg.extlist (extension fp) then [fp] else []
    if r ≠ 0 ∧ isArchiveName fp then
      let c := f fp (r - 1) fs
      let rest := outLoop f path cfg ns c.budget c.fs
      ⟨here ++ (c.outs ++ rest.outs), rest.budget, rest.fs,
        (fp, r - 1) :: (c.trace ++ rest.trace), c.warns ++ rest.warns,
        c.written ++ rest.written⟩
    else
      let rest := outLoop f path cfg ns r fs
      ⟨here ++ rest.outs, rest.budget, rest.fs, rest.trace, rest.warns,
        rest.written⟩

/-- The body of `extract_archive` after a successful open (lines
125-197): resolve the path, filter unsafe members, select and extract,
run the output loop, and delete the source archive afterwards when
`keep` is false (lines 186-192; a missing file is ignored). -/
def extractBody (f : String → Int → List String → Res) (archive : String)
    (path? : Option String) (cfg : Cfg) (r : Int) (fs : List String)
    (names0 : List String) : Res :=
  let path := resolvePath path? archive
  let names := keptNames cfg names0
  let res := outLoop f path cfg names r (fsAfterExtract path cfg fs names r)
  ⟨res.outs, res.budget,
    if cfg.keep then res.fs else res.fs.filter (fun q => decide (q ≠ archive)),
    res.trace, levelWarns cfg names0 ++ res.warns,
    extractWrites path cfg fs names r ++ res.written⟩

/-- Function `extract_archive` (lines 83-197) with explicit state.  A failed open
is caught and yields the neutral result — the empty list and, for
non-root calls, the budget exactly as handed in (lines 117-123). -/
def extractA : Nat → World → String → Option String → Cfg → Int →
    List String → Res
  | 0, _, _, _, _, r, fs => ⟨[], r, fs, [], [], []⟩
  | Nat.succ fuel, w, archive, path?, cfg, r, fs =>
    match openArchive w fs archive with
    | Except.error _ => ⟨[], r, fs, [], [], []⟩
    | Except.ok names0 =>
      extractBody (fun a r2 f2 => extractA fuel w a none cfg r2 f2)
        archive path? cfg r fs names0

/-- The `_root=True` view (line 197): the caller receives only the file
list. -/
def extract_archive (w : World) (fuel : Nat) (archive : String)
    (path? : Option String) (cfg : Cfg) (recursion : Int)
    (fs : List String) : List String :=
  (extractA fuel w archive path? cfg recursion fs).outs

/-- A small concrete world for witnesses: `top.zip` contains
`inner.zip`, which in turn contains `x.srt`. -/
def demoWorld : World :=
  ⟨fun p =>
    if p = "top.zip" then Except.ok ["inner.zip"]
    else if p = "top/inner.zip" then Except.ok ["x.srt"]
    else Except.error ()⟩

/-- A concrete world for witnesses: `t.zip` has one unsafe member. -/
def unsafeWorld : World :=
  ⟨fun p =>
    if p = "t.zip" then Except.ok ["../evil", "ok.srt", "sub/a.txt"]
    else Except.error ()⟩

/-- A concrete world for witnesses: `t.zip` lists a nested archive
`bad.zip` that cannot be opened. -/
def failWorld : World :=
  ⟨fun p =>
    if p = "t.zip" then Except.ok ["bad.zip", "b.srt"]
    else Except.error ()⟩

/-- A world in which nothing opens: every file is unsupported. -/
def badWorld : World :=
  ⟨fun _ => Except.error ()⟩

/-- Number of zip/rar-named entries of a member list. -/
def zipCount (ns : List String) : Nat :=
  (ns.filter (fun n => isArchiveName n)).length

/-- Invariant coupling a member list, a budget and a file set: every
zip/rar member whose file is not on disk is preceded by at least `r`
zip/rar members (and `r` is non-negative).  It holds right after the
extraction phase of a level — the selection loop only runs out of its
`archives` counter after `r` zip/rar members — and is preserved along
the output loop; it implies that whenever the loop descends into a
member, that member's file exists. -/
def BudgetPre (path : String) (fs : List String) (ns : List String)
    (r : Int) : Prop :=
  ∀ a m b, ns = a ++ m :: b → isArchiveName m = true →
    joinPath path m ∉ fs → 0 ≤ r ∧ r ≤ (zipCount a : Int)

/-- Observational agreement of two call outcomes: same output list, same
returned budget, same recursion trace, same warnings (the file sets may
differ). -/
def obsEq (x y : Res) : Prop :=
  x.outs = y.outs ∧ x.budget = y.budget ∧ x.trace = y.trace ∧
    x.warns = y.warns

/-! ## Lemmas about the path helpers -/

theorem takeWhile_all {α : Type} (q : α → Bool) (l : List α)
    (h : ∀ x ∈ l, q x = true) :
    l.takeWhile q = l := by
  induction l with
  | nil => simp
  | cons a l ih =>
    have ha : q a = true := h a (by simp)
    simp only [List.takeWhile_cons, ha, if_true]
    rw [ih (fun x hx => h x (by simp [hx]))]

theorem takeWhile_append_all {α : Type} (q : α → Bool) (l₁ l₂ : List α)
    (h : ∀ x ∈ l₁, q x = true) :
    (l₁ ++ l₂).takeWhile q = l₁ ++ l₂.takeWhile q := by
  induction l₁ with
  | nil => simp
  | cons a l ih =>
    have ha : q a = true := h a (by simp)
    simp only [List.cons_append, List.takeWhile_cons, ha, if_true]
    rw [ih (fun x hx => h x (by simp [hx]))]

theorem takeWhile_append_stop {α : Type} (q : α → Bool) (l₁ l₂ : List α)
    (h : ∃ x ∈ l₁, q x = false) :
    (l₁ ++ l₂).takeWhile q = l₁.takeWhile q := by
  induction l₁ with
  | nil => simp at h
  | cons a l ih =>
    by_cases hqa : q a = true
    · obtain ⟨x, hx, hqx⟩ := h
      rcases List.mem_cons.mp hx with hx' | hx'
      · rw [hx'] at hqx; rw [hqa] at hqx; cases hqx
      · simp only [List.cons_append, List.takeWhile_cons, hqa, if_true]
        rw [ih ⟨x, hx', hqx⟩]
    · have hf : q a = false := by revert hqa; cases q a <;> simp
      simp [List.takeWhile_cons, hf]

theorem afterLast_append_cons (c : Char) (a b : List Char) :
    afterLast c (a ++ c :: b) = afterLast c b := by
  unfold afterLast
  have hrev : (a ++ c :: b).reverse = b.reverse ++ c :: a.reverse := by
    simp
  rw [hrev]
  by_cases h : ∀ x ∈ b.reverse, (x != c) = true
  · rw [takeWhile_append_all _ _ _ h]
    have h2 : List.takeWhile (fun x => x != c) (c :: a.reverse) = [] := by
      simp [List.takeWhile_cons]
    rw [h2, List.append_nil, takeWhile_all _ _ h]
  · push_neg at h
    obtain ⟨x, hx, hqx⟩ := h
    have hqx' : (x != c) = false := by revert hqx; cases (x != c) <;> simp
    rw [takeWhile_append_stop _ _ _ ⟨x, hx, hqx'⟩]

theorem afterLast_append_of_contains (c : Char) (t u : List Char)
    (h : u.contains c = true) :
    afterLast c (t ++ u) = afterLast c u := by
  unfold afterLast
  rw [List.reverse_append]
  have h' : ∃ x ∈ u.reverse, (x != c) = false := by
    rw [List.contains_iff_exists_mem_beq] at h
    obtain ⟨x, hx, hbeq⟩ := h
    have hxc : x = c := (eq_of_beq hbeq).symm
    refine ⟨x, by simpa using hx, ?_⟩
    simp [hxc]
  rw [takeWhile_append_stop _ _ _ h']

/-- Fact: `extChars` is built from the final segment only. -/
theorem segmentOf_mk_append_cons (a : List Char) (n : String) :
    segmentOf (String.mk (a ++ '/' :: n.data)) = segmentOf n := by
  unfold segmentOf
  exact afterLast_append_cons '/' a n.data

/-- The extension of a joined path is the extension of the member name:
`os.path.join` either returns `name` itself or appends it after a `/`. -/
theorem extension_joinPath (path name : String) :
    extension (joinPath path name) = extension name := by
  unfold joinPath
  by_cases h1 : name.data.head? = some '/'
  · rw [if_pos h1]
  · rw [if_neg h1]
    by_cases h2 : path.data = [] ∨ path.data.getLast? = some '/'
    · rw [if_pos h2]
      rcases h2 with h2 | h2
      · simp only [h2, List.nil_append]
      · -- path ends in '/': path.data = init ++ ['/']
        obtain ⟨l, hl⟩ : ∃ l, path.data = l ++ ['/'] := by
          rcases List.eq_nil_or_concat path.data with h | ⟨l, x, hlx⟩
          · rw [h] at h2; simp at h2
          · rw [List.concat_eq_append] at hlx
            rw [hlx, List.getLast?_concat] at h2
            cases h2
            exact ⟨l, hlx⟩
        unfold extension extChars
        rw [hl, List.append_assoc, List.singleton_append,
          segmentOf_mk_append_cons]
    · rw [if_neg h2]
      unfold extension extChars
      rw [segmentOf_mk_append_cons]

theorem segmentOf_decompose (p : String) :
    segmentOf p =
      (segmentOf p).takeWhile (fun x => x == '.') ++
      (segmentOf p).dropWhile (fun x => x == '.') := by
  rw [List.takeWhile_append_dropWhile]

theorem afterLast_of_rest_contains (p : String)
    (h : ((segmentOf p).dropWhile (fun x => x == '.')).contains '.' = true) :
    afterLast '.' (segmentOf p) =
      afterLast '.' ((segmentOf p).dropWhile (fun x => x == '.')) := by
  conv_lhs => rw [segmentOf_decompose p]
  exact afterLast_append_of_contains '.' _ _ h

/-- The code's `extension` agrees everywhere with the amended contract. -/
theorem extension_eq_specExtensionOf (p : String) :
    extension p = specExtensionOf p := by
  unfold extension extChars specExtensionOf
  by_cases h : ((segmentOf p).dropWhile (fun x => x == '.')).contains '.' = true
  · rw [if_pos h, if_pos h]
    simp only [List.drop_succ_cons, List.drop_zero]
    rw [afterLast_of_rest_contains p h]
  · rw [if_neg h, if_neg h]
    rfl

/-! ## Budget accounting of the recursive extractor -/

/-- Each recursive invocation consumes exactly one unit: the returned
budget is the handed budget minus the number of invocations, for the
loop. -/
theorem outLoop_budget_law (f : String → Int → List String → Res)
    (path : String) (cfg : Cfg)
    (hf : ∀ a r fs, (f a r fs).budget = r - (f a r fs).trace.length) :
    ∀ (ns : List String) (r : Int) (fs : List String),
      (outLoop f path cfg ns r fs).budget
        = r - (outLoop f path cfg ns r fs).trace.length := by
  intro ns
  induction ns with
  | nil => intro r fs; simp [outLoop]
  | cons n ns ih =>
    intro r fs
    by_cases hc : r ≠ 0 ∧ isArchiveName (joinPath path n) = true
    · simp only [outLoop, if_pos hc]
      rw [ih, hf]
      simp only [List.length_cons, List.length_append]
      push_cast
      omega
    · simp only [outLoop, if_neg hc]
      rw [ih]

/-- Budget law for a whole call: returned budget = handed budget minus
the number of recursive invocations in the call tree. -/
theorem extractA_budget_law :
    ∀ (fuel : Nat) (w : World) (archive : String) (path? : Option String)
      (cfg : Cfg) (r : Int) (fs : List String),
      (extractA fuel w archive path? cfg r fs).budget
        = r - (extractA fuel w archive path? cfg r fs).trace.length
  | 0, _, _, _, _, _, _ => by simp [extractA]
  | Nat.succ fuel, w, archive, path?, cfg, r, fs => by
    unfold extractA
    cases hop : openArchive w fs archive with
    | error e => simp
    | ok names0 =>
      simp only [extractBody]
      exact outLoop_budget_law _ _ _
        (fun a r2 f2 => extractA_budget_law fuel w a none cfg r2 f2) _ _ _

/-- With a non-negative handed budget, the returned budget and the budget
recorded at every recursive invocation stay non-negative (loop form). -/
theorem outLoop_nonneg (f : String → Int → List String → Res)
    (path : String) (cfg : Cfg)
    (hf : ∀ a r fs, 0 ≤ r → 0 ≤ (f a r fs).budget ∧
      ∀ pb ∈ (f a r fs).trace, 0 ≤ pb.2) :
    ∀ (ns : List String) (r : Int) (fs : List String), 0 ≤ r →
      0 ≤ (outLoop f path cfg ns r fs).budget ∧
        ∀ pb ∈ (outLoop f path cfg ns r fs).trace, 0 ≤ pb.2 := by
  intro ns
  induction ns with
  | nil => intro r fs hr; simp [outLoop, hr]
  | cons n ns ih =>
    intro r fs hr
    by_cases hc : r ≠ 0 ∧ isArchiveName (joinPath path n) = true
    · simp only [outLoop, if_pos hc]
      have hr1 : 0 ≤ r - 1 := by
        rcases hc with ⟨hne, _⟩
        omega
      have hchild := hf (joinPath path n) (r - 1) fs hr1
      have hrest := ih (f (joinPath path n) (r - 1) fs).budget
        (f (joinPath path n) (r - 1) fs).fs hchild.1
      refine ⟨hrest.1, ?_⟩
      intro pb hpb
      rcases List.mem_cons.mp hpb with hpb | hpb
      · rw [hpb]; exact hr1
      · rcases List.mem_append.mp hpb with hpb | hpb
        · exact hchild.2 pb hpb
        · exact hrest.2 pb hpb
    · simp only [outLoop, if_neg hc]
      exact ih r fs hr

/-- With a non-negative handed budget, no budget anywhere in the call
tree is negative. -/
theorem extractA_nonneg :
    ∀ (fuel : Nat) (w : World) (archive : String) (path? : Option String)
      (cfg : Cfg) (r : Int) (fs : List String), 0 ≤ r →
      0 ≤ (extractA fuel w archive path? cfg r fs).budget ∧
        ∀ pb ∈ (extractA fuel w archive path? cfg r fs).trace, 0 ≤ pb.2
  | 0, _, _, _, _, _, _ => by simp [extractA]
  | Nat.succ fuel, w, archive, path?, cfg, r, fs => by
    intro hr
    unfold extractA
    cases hop : openArchive w fs archive with
    | error e => simpa using hr
    | ok names0 =>
      simp only [extractBody]
      exact outLoop_nonneg _ _ _
        (fun a r2 f2 => extractA_nonneg fuel w a none cfg r2 f2) _ _ _ hr

/-- A failed open (missing file or unsupported format) yields the neutral
result: empty output, the budget exactly as handed in, untouched files,
no recursion, no warnings, nothing written (lines 117-123). -/
theorem extractA_openFail (fuel : Nat) (w : World) (archive : String)
    (path? : Option String) (cfg : Cfg) (r : Int) (fs : List String)
    (h : openArchive w fs archive = Except.error ()) :
    extractA fuel w archive path? cfg r fs = ⟨[], r, fs, [], [], []⟩ := by
  cases fuel with
  | zero => simp [extractA]
  | succ fuel => rw [extractA, h]

/-! ## Filesystem growth and written files -/

theorem fsAfterExtract_superset (path : String) (cfg : Cfg)
    (fs names : List String) (r : Int) :
    fs ⊆ fsAfterExtract path cfg fs names r := by
  unfold fsAfterExtract
  split
  · exact fun x hx => hx
  · exact List.subset_append_left _ _

theorem outLoop_mono (f : String → Int → List String → Res)
    (path : String) (cfg : Cfg)
    (hf : ∀ a r fs, fs ⊆ (f a r fs).fs) :
    ∀ (ns : List String) (r : Int) (fs : List String),
      fs ⊆ (outLoop f path cfg ns r fs).fs := by
  intro ns
  induction ns with
  | nil => intro r fs; simp [outLoop]
  | cons n ns ih =>
    intro r fs
    by_cases hc : r ≠ 0 ∧ isArchiveName (joinPath path n) = true
    · simp only [outLoop, if_pos hc]
      intro x hx
      exact ih _ _ (hf (joinPath path n) (r - 1) fs hx)
    · simp only [outLoop, if_neg hc]
      exact ih r fs

/-- When `keep` is true no file is ever deleted: the file set only
grows. -/
theorem extractA_mono (cfg : Cfg) (hkeep : cfg.keep = true) :
    ∀ (fuel : Nat) (w : World) (archive : String) (path? : Option String)
      (r : Int) (fs : List String),
      fs ⊆ (extractA fuel w archive path? cfg r fs).fs
  | 0, _, _, _, _, _ => by simp [extractA]
  | Nat.succ fuel, w, archive, path?, r, fs => by
    unfold extractA
    cases hop : openArchive w fs archive with
    | error e => simp
    | ok names0 =>
      simp only [extractBody, hkeep, if_true]
      intro x hx
      exact outLoop_mono _ _ _
        (fun a r2 f2 => extractA_mono cfg hkeep fuel w a none r2 f2) _ _ _
        (fsAfterExtract_superset _ cfg fs _ r hx)

theorem selectMembers_not_on_disk (path : String) (cfg : Cfg)
    (fs : List String) (hov : cfg.overwrite = false) :
    ∀ (ns : List String) (archives : Int) (m : String),
      m ∈ selectMembers path cfg fs ns archives → joinPath path m ∉ fs := by
  intro ns
  induction ns with
  | nil => intro archives m hm; simp [selectMembers] at hm
  | cons n ns ih =>
    intro archives m hm
    unfold selectMembers at hm
    by_cases h1 : cfg.overwrite = false ∧ joinPath path n ∈ fs
    · rw [if_pos h1] at hm
      exact ih archives m hm
    · rw [if_neg h1] at hm
      have hnot : joinPath path n ∉ fs := fun hin => h1 ⟨hov, hin⟩
      by_cases h2 : matchesExtlist cfg.extlist (extension n) = true
      · rw [if_pos h2] at hm
        rcases List.mem_cons.mp hm with hm | hm
        · rw [hm]; exact hnot
        · exact ih archives m hm
      · rw [if_neg h2] at hm
        by_cases h3 : archives ≠ 0 ∧ isArchiveName n = true
        · rw [if_pos h3] at hm
          rcases List.mem_cons.mp hm with hm | hm
          · rw [hm]; exact hnot
          · exact ih (archives - 1) m hm
        · rw [if_neg h3] at hm
          exact ih archives m hm

theorem outLoop_written (f : String → Int → List String → Res)
    (path : String) (cfg : Cfg)
    (hf : ∀ a r fs, ∀ p ∈ (f a r fs).written, p ∉ fs)
    (hmono : ∀ a r fs, fs ⊆ (f a r fs).fs) :
    ∀ (ns : List String) (r : Int) (fs : List String),
      ∀ p ∈ (outLoop f path cfg ns r fs).written, p ∉ fs := by
  intro ns
  induction ns with
  | nil => intro r fs p hp; simp [outLoop] at hp
  | cons n ns ih =>
    intro r fs p hp
    by_cases hc : r ≠ 0 ∧ isArchiveName (joinPath path n) = true
    · simp only [outLoop, if_pos hc] at hp
      rcases List.mem_append.mp hp with hp | hp
      · exact hf (joinPath path n) (r - 1) fs p hp
      · intro hin
        exact ih _ _ p hp (hmono (joinPath path n) (r - 1) fs hin)
    · simp only [outLoop, if_neg hc] at hp
      exact ih r fs p hp

/-- With `overwrite` false and `keep` true, a call tree only ever writes
files that did not exist when it started: nothing is re-written. -/
theorem extractA_written (cfg : Cfg) (hov : cfg.overwrite = false)
    (hkeep : cfg.keep = true) :
    ∀ (fuel : Nat) (w : World) (archive : String) (path? : Option String)
      (r : Int) (fs : List String),
      ∀ p ∈ (extractA fuel w archive path? cfg r fs).written, p ∉ fs
  | 0, _, _, _, _, _ => by intro p hp; simp [extractA] at hp
  | Nat.succ fuel, w, archive, path?, r, fs => by
    intro p hp
    rw [extractA] at hp
    cases hop : openArchive w fs archive with
    | error e => rw [hop] at hp; simp at hp
    | ok names0 =>
      rw [hop] at hp
      simp only [extractBody] at hp
      rcases List.mem_append.mp hp with hp | hp
      · unfold extractWrites at hp
        rw [List.mem_map] at hp
        obtain ⟨m, hm, hjm⟩ := hp
        rw [← hjm]
        exact selectMembers_not_on_disk _ cfg fs hov _ r m hm
      · intro hin
        exact outLoop_written _ _ cfg
          (fun a r2 f2 => extractA_written cfg hov hkeep fuel w a none r2 f2)
          (fun a r2 f2 => extractA_mono cfg hkeep fuel w a none r2 f2)
          _ r _ p hp
          (fsAfterExtract_superset _ cfg fs _ r hin)

/-! ## Stability of the observable outcome in the starting file set -/

theorem isArchiveName_joinPath (path n : String) :
    isArchiveName (joinPath path n) = isArchiveName n := by
  unfold isArchiveName
  rw [extension_joinPath]

theorem zipCount_cons (x : String) (a : List String) :
    (zipCount (x :: a) : Int)
      = (if isArchiveName x = true then 1 else 0) + zipCount a := by
  unfold zipCount
  rw [List.filter_cons]
  split
  · simp only [List.length_cons]
    push_cast
    omega
  · simp

/-- If a zip/rar member whose file is absent was not queued by the
selection loop, the `archives` counter must have been exhausted on the
zip/rar members before it. -/
theorem selectMembers_skip_bound (path : String) (cfg : Cfg)
    (fs : List String) (m : String) (b : List String)
    (hm : isArchiveName m = true) (hnfs : joinPath path m ∉ fs) :
    ∀ (a : List String) (archives : Int), 0 ≤ archives →
      joinPath path m ∉
        (selectMembers path cfg fs (a ++ m :: b) archives).map
          (fun n => joinPath path n) →
      archives ≤ (zipCount a : Int) := by
  intro a
  induction a with
  | nil =>
    intro archives h0 hmap
    rw [List.nil_append] at hmap
    unfold selectMembers at hmap
    by_cases h1 : cfg.overwrite = false ∧ joinPath path m ∈ fs
    · exact absurd h1.2 hnfs
    · rw [if_neg h1] at hmap
      by_cases h2 : matchesExtlist cfg.extlist (extension m) = true
      · rw [if_pos h2] at hmap
        exact absurd (List.mem_map_of_mem _ (List.mem_cons_self m _)) hmap
      · rw [if_neg h2] at hmap
        by_cases h3 : archives ≠ 0 ∧ isArchiveName m = true
        · rw [if_pos h3] at hmap
          exact absurd (List.mem_map_of_mem _ (List.mem_cons_self m _)) hmap
        · have hz : archives = 0 := by
            by_contra hne
            exact h3 ⟨hne, hm⟩
          rw [hz]
          simp [zipCount]
  | cons x a ih =>
    intro archives h0 hmap
    rw [List.cons_append] at hmap
    unfold selectMembers at hmap
    by_cases h1 : cfg.overwrite = false ∧ joinPath path x ∈ fs
    · rw [if_pos h1] at hmap
      have hle := ih archives h0 hmap
      rw [zipCount_cons]
      split <;> omega
    · rw [if_neg h1] at hmap
      by_cases h2 : matchesExtlist cfg.extlist (extension x) = true
      · rw [if_pos h2, List.map_cons] at hmap
        have hmap2 : joinPath path m ∉
            (selectMembers path cfg fs (a ++ m :: b) archives).map
              (fun n => joinPath path n) :=
          fun hin => hmap (List.mem_cons_of_mem _ hin)
        have hle := ih archives h0 hmap2
        rw [zipCount_cons]
        split <;> omega
      · rw [if_neg h2] at hmap
        by_cases h3 : archives ≠ 0 ∧ isArchiveName x = true
        · rw [if_pos h3, List.map_cons] at hmap
          have hmap2 : joinPath path m ∉
              (selectMembers path cfg fs (a ++ m :: b) (archives - 1)).map
                (fun n => joinPath path n) :=
            fun hin => hmap (List.mem_cons_of_mem _ hin)
          have h0' : 0 ≤ archives - 1 := by
            rcases h3 with ⟨hne, _⟩
            omega
          have hle := ih (archives - 1) h0' hmap2
          rw [zipCount_cons, if_pos h3.2]
          omega
        · rw [if_neg h3] at hmap
          have hle := ih archives h0 hmap
          rw [zipCount_cons]
          split <;> omega

/-- With a negative (unbounded) counter every zip/rar member is either
already on disk or queued for extraction. -/
theorem selectMembers_neg (path : String) (cfg : Cfg) (fs : List String) :
    ∀ (ns : List String) (archives : Int), archives < 0 →
      ∀ m ∈ ns, isArchiveName m = true →
        joinPath path m ∈ fs ∨
          joinPath path m ∈
            (selectMembers path cfg fs ns archives).map
              (fun n => joinPath path n) := by
  intro ns
  induction ns with
  | nil => intro archives _ m hm; simp at hm
  | cons x ns ih =>
    intro archives hneg m hm hma
    unfold selectMembers
    by_cases h1 : cfg.overwrite = false ∧ joinPath path x ∈ fs
    · rw [if_pos h1]
      rcases List.mem_cons.mp hm with hm | hm
      · left; rw [hm]; exact h1.2
      · exact ih archives hneg m hm hma
    · rw [if_neg h1]
      by_cases h2 : matchesExtlist cfg.extlist (extension x) = true
      · rw [if_pos h2]
        rcases List.mem_cons.mp hm with hm | hm
        · right; rw [List.map_cons, hm]; exact List.mem_cons_self _ _
        · rcases ih archives hneg m hm hma with h | h
          · left; exact h
          · right; rw [List.map_cons]; exact List.mem_cons_of_mem _ h
      · rw [if_neg h2]
        have h3 : archives ≠ 0 := by omega
        rcases List.mem_cons.mp hm with hm | hm
        · rw [if_pos ⟨h3, hm ▸ hma⟩]
          right; rw [List.map_cons, hm]; exact List.mem_cons_self _ _
        · by_cases h4 : isArchiveName x = true
          · rw [if_pos ⟨h3, h4⟩]
            rcases ih (archives - 1) (by omega) m hm hma with h | h
            · left; exact h
            · right; rw [List.map_cons]; exact List.mem_cons_of_mem _ h
          · rw [if_neg (fun hc => h4 hc.2)]
            exact ih archives hneg m hm hma

/-- The coupling invariant holds right after the extraction phase. -/
theorem budgetPre_after_extract (path : String) (cfg : Cfg)
    (fs names : List String) (r : Int) :
    BudgetPre path (fsAfterExtract path cfg fs names r) names r := by
  intro a m b hns hm hnfs
  have hsplit : joinPath path m ∉ fs ∧
      joinPath path m ∉ (selectMembers path cfg fs names r).map
        (fun n => joinPath path n) := by
    unfold fsAfterExtract at hnfs
    by_cases he : (selectMembers path cfg fs names r).isEmpty = true
    · rw [if_pos he] at hnfs
      refine ⟨hnfs, ?_⟩
      rw [List.isEmpty_iff] at he
      rw [he]
      simp
    · rw [if_neg he] at hnfs
      unfold extractWrites at hnfs
      exact ⟨fun h => hnfs (List.mem_append_left _ h),
        fun h => hnfs (List.mem_append_right _ h)⟩
  by_cases hr : 0 ≤ r
  · refine ⟨hr, ?_⟩
    rw [hns] at hsplit
    exact selectMembers_skip_bound path cfg fs m b hm hsplit.1 a r hr hsplit.2
  · exfalso
    have hmem : m ∈ names := by
      rw [hns]
      exact List.mem_append_right _ (List.mem_cons_self _ _)
    rcases selectMembers_neg path cfg fs names r (by omega) m hmem hm with h | h
    · exact hsplit.1 h
    · exact hsplit.2 h

/-- The observable outcome of the output loop does not depend on the file
set, as long as the coupling invariant holds on both sides: every
attempted descent finds its file present on both sides, and the exact
same sibling budgets arise. -/
theorem outLoop_obsEq (f : String → Int → List String → Res)
    (path : String) (cfg : Cfg)
    (hfEq : ∀ a r fsA fsB, (a ∈ fsA ↔ a ∈ fsB) →
      obsEq (f a r fsA) (f a r fsB))
    (hfLaw : ∀ a r fs, (f a r fs).budget = r - (f a r fs).trace.length)
    (hfNon : ∀ a r fs, 0 ≤ r → 0 ≤ (f a r fs).budget ∧
      ∀ pb ∈ (f a r fs).trace, 0 ≤ pb.2)
    (hfMono : ∀ a r fs, fs ⊆ (f a r fs).fs) :
    ∀ (ns : List String) (r : Int) (fsA fsB : List String),
      BudgetPre path fsA ns r → BudgetPre path fsB ns r →
      obsEq (outLoop f path cfg ns r fsA) (outLoop f path cfg ns r fsB) := by
  intro ns
  induction ns with
  | nil => intro r fsA fsB _ _; exact ⟨rfl, rfl, rfl, rfl⟩
  | cons n ns ih =>
    intro r fsA fsB hA hB
    have hz0 : (zipCount ([] : List String) : Int) = 0 := by simp [zipCount]
    by_cases hc : r ≠ 0 ∧ isArchiveName (joinPath path n) = true
    · have harch : isArchiveName n = true := by
        rw [← isArchiveName_joinPath path n]
        exact hc.2
      have hmemA : joinPath path n ∈ fsA := by
        by_contra hno
        obtain ⟨h1, h2⟩ := hA [] n ns rfl harch hno
        rw [hz0] at h2
        exact hc.1 (by omega)
      have hmemB : joinPath path n ∈ fsB := by
        by_contra hno
        obtain ⟨h1, h2⟩ := hB [] n ns rfl harch hno
        rw [hz0] at h2
        exact hc.1 (by omega)
      obtain ⟨houts, hbud, htr, hwarn⟩ :=
        hfEq (joinPath path n) (r - 1) fsA fsB ⟨fun _ => hmemB, fun _ => hmemA⟩
      have hpres : ∀ fsX : List String, BudgetPre path fsX (n :: ns) r →
          BudgetPre path (f (joinPath path n) (r - 1) fsX).fs ns
            (f (joinPath path n) (r - 1) fsX).budget := by
        intro fsX hX a' m b' hns hm hnfs
        have hnfsX : joinPath path m ∉ fsX :=
          fun hin => hnfs (hfMono _ _ _ hin)
        obtain ⟨hr0, hle⟩ := hX (n :: a') m b' (by rw [hns, List.cons_append]) hm hnfsX
        have hr1 : 0 ≤ r - 1 := by
          rcases hc with ⟨hne, _⟩
          omega
        have hnonneg := (hfNon (joinPath path n) (r - 1) fsX hr1).1
        have hlaw := hfLaw (joinPath path n) (r - 1) fsX
        rw [zipCount_cons, if_pos harch] at hle
        refine ⟨hnonneg, ?_⟩
        have hub : (f (joinPath path n) (r - 1) fsX).budget ≤ r - 1 := by
          rw [hlaw]
          omega
        omega
      have hA2 := hpres fsA hA
      have hB2 := hpres fsB hB
      rw [← hbud] at hB2
      obtain ⟨r1, r2, r3, r4⟩ := ih (f (joinPath path n) (r - 1) fsA).budget
        (f (joinPath path n) (r - 1) fsA).fs
        (f (joinPath path n) (r - 1) fsB).fs hA2 hB2
      simp only [outLoop, if_pos hc]
      rw [← hbud]
      exact ⟨by rw [houts, r1], by rw [r2], by rw [htr, r3], by rw [hwarn, r4]⟩
    · have hpres2 : ∀ fsX : List String, BudgetPre path fsX (n :: ns) r →
          BudgetPre path fsX ns r := by
        intro fsX hX a' m b' hns hm hnfs
        obtain ⟨hr0, hle⟩ := hX (n :: a') m b' (by rw [hns, List.cons_append]) hm hnfs
        rw [zipCount_cons] at hle
        by_cases h4 : isArchiveName n = true
        · have hr00 : r = 0 := by
            by_contra hne
            exact hc ⟨hne, by rw [isArchiveName_joinPath]; exact h4⟩
          refine ⟨by omega, ?_⟩
          rw [hr00]
          exact Int.natCast_nonneg _
        · rw [if_neg h4] at hle
          exact ⟨hr0, by omega⟩
      obtain ⟨r1, r2, r3, r4⟩ := ih r fsA fsB (hpres2 fsA hA) (hpres2 fsB hB)
      simp only [outLoop, if_neg hc]
      exact ⟨by rw [r1], r2, r3, r4⟩

/-- The observable outcome of a whole call depends on the starting file
set only through the existence of the archive itself (`keep` true,
so nested calls never delete files). -/
theorem extractA_obsEq (cfg : Cfg) (hkeep : cfg.keep = true) :
    ∀ (fuel : Nat) (w : World) (archive : String) (path? : Option String)
      (r : Int) (fsA fsB : List String), (archive ∈ fsA ↔ archive ∈ fsB) →
      obsEq (extractA fuel w archive path? cfg r fsA)
        (extractA fuel w archive path? cfg r fsB)
  | 0, _, _, _, _, _, _ => fun _ => ⟨rfl, rfl, rfl, rfl⟩
  | Nat.succ fuel, w, archive, path?, r, fsA, fsB => by
    intro hiff
    by_cases hin : archive ∈ fsA
    · have hinB : archive ∈ fsB := hiff.mp hin
      unfold extractA openArchive
      rw [if_pos hin, if_pos hinB]
      cases harch : w.arch archive with
      | error e => exact ⟨rfl, rfl, rfl, rfl⟩
      | ok names0 =>
        simp only [extractBody]
        obtain ⟨h1, h2, h3, h4⟩ :=
          outLoop_obsEq (fun a r2 f2 => extractA fuel w a none cfg r2 f2)
            (resolvePath path? archive) cfg
            (fun a r2 fA fB hiff2 =>
              extractA_obsEq cfg hkeep fuel w a none r2 fA fB hiff2)
            (fun a r2 f2 => extractA_budget_law fuel w a none cfg r2 f2)
            (fun a r2 f2 => extractA_nonneg fuel w a none cfg r2 f2)
            (fun a r2 f2 => extractA_mono cfg hkeep fuel w a none r2 f2)
            (keptNames cfg names0) r
            (fsAfterExtract (resolvePath path? archive) cfg fsA
              (keptNames cfg names0) r)
            (fsAfterExtract (resolvePath path? archive) cfg fsB
              (keptNames cfg names0) r)
            (budgetPre_after_extract _ cfg fsA _ r)
            (budgetPre_after_extract _ cfg fsB _ r)
        exact ⟨h1, h2, h3, by rw [h4]⟩
    · have hinB : archive ∉ fsB := fun h => hin (hiff.mpr h)
      unfold extractA openArchive
      rw [if_neg hin, if_neg hinB]
      exact ⟨rfl, rfl, rfl, rfl⟩

/-! ## Listing, safety and warning lemmas -/

/-- Opening succeeded: one unfolding of `extractA`. -/
theorem extractA_succ_ok (fuel : Nat) (w : World) (archive : String)
    (path? : Option String) (cfg : Cfg) (r : Int) (fs : List String)
    (names0 : List String)
    (hopen : openArchive w fs archive = Except.ok names0) :
    extractA (fuel + 1) w archive path? cfg r fs
      = extractBody (fun a r2 f2 => extractA fuel w a none cfg r2 f2)
          archive path? cfg r fs names0 := by
  rw [extractA, hopen]

theorem selectMembers_subset (path : String) (cfg : Cfg)
    (fs : List String) :
    ∀ (ns : List String) (archives : Int),
      selectMembers path cfg fs ns archives ⊆ ns := by
  intro ns
  induction ns with
  | nil => intro archives; simp [selectMembers]
  | cons n ns ih =>
    intro archives x hx
    unfold selectMembers at hx
    by_cases h1 : cfg.overwrite = false ∧ joinPath path n ∈ fs
    · rw [if_pos h1] at hx
      exact List.mem_cons_of_mem _ (ih archives hx)
    · rw [if_neg h1] at hx
      by_cases h2 : matchesExtlist cfg.extlist (extension n) = true
      · rw [if_pos h2] at hx
        rcases List.mem_cons.mp hx with hx | hx
        · rw [hx]; exact List.mem_cons_self _ _
        · exact List.mem_cons_of_mem _ (ih archives hx)
      · rw [if_neg h2] at hx
        by_cases h3 : archives ≠ 0 ∧ isArchiveName n = true
        · rw [if_pos h3] at hx
          rcases List.mem_cons.mp hx with hx | hx
          · rw [hx]; exact List.mem_cons_self _ _
          · exact List.mem_cons_of_mem _ (ih (archives - 1) hx)
        · rw [if_neg h3] at hx
          exact List.mem_cons_of_mem _ (ih archives hx)

theorem keptNames_unsafe_not_mem (cfg : Cfg) (names0 : List String)
    (hsafe : cfg.safe = true) (n : String) (hn : unsafePath n = true) :
    n ∉ keptNames cfg names0 := by
  unfold keptNames
  rw [hsafe]
  simp only [if_true]
  intro hmem
  have := (List.mem_filter.mp hmem).2
  rw [hn] at this
  cases this

theorem keptNames_safe_mem (cfg : Cfg) (names0 : List String)
    (hsafe : cfg.safe = true) (n : String) (hn0 : n ∈ names0)
    (hn : unsafePath n = false) :
    n ∈ keptNames cfg names0 := by
  unfold keptNames
  rw [hsafe]
  simp only [if_true]
  rw [List.mem_filter]
  exact ⟨hn0, by rw [hn]; rfl⟩

theorem keptNames_all_safe (cfg : Cfg) (names0 : List String)
    (hsafe : cfg.safe = true) (n : String)
    (hn : n ∈ keptNames cfg names0) :
    unsafePath n = false := by
  unfold keptNames at hn
  rw [hsafe] at hn
  simp only [if_true] at hn
  have := (List.mem_filter.mp hn).2
  revert this
  cases h : unsafePath n <;> simp

/-- Every member whose (joined) extension passes the `extlist` filter is
listed by the output loop, whatever else happens around it. -/
theorem outLoop_mem_outs (f : String → Int → List String → Res)
    (path : String) (cfg : Cfg) :
    ∀ (ns : List String) (r : Int) (fs : List String) (m : String),
      m ∈ ns →
      matchesExtlist cfg.extlist (extension (joinPath path m)) = true →
      joinPath path m ∈ (outLoop f path cfg ns r fs).outs := by
  intro ns
  induction ns with
  | nil => intro r fs m hm; simp at hm
  | cons n ns ih =>
    intro r fs m hm hmatch
    by_cases hc : r ≠ 0 ∧ isArchiveName (joinPath path n) = true
    · simp only [outLoop, if_pos hc]
      rcases List.mem_cons.mp hm with hm | hm
      · rw [hm] at hmatch ⊢
        rw [if_pos hmatch]
        exact List.mem_append_left _ (List.mem_cons_self _ _)
      · refine List.mem_append_right _ (List.mem_append_right _ ?_)
        exact ih _ _ m hm hmatch
    · simp only [outLoop, if_neg hc]
      rcases List.mem_cons.mp hm with hm | hm
      · rw [hm] at hmatch ⊢
        rw [if_pos hmatch]
        exact List.mem_cons_self _ _
      · by_cases hh : matchesExtlist cfg.extlist
            (extension (joinPath path n)) = true
        · rw [if_pos hh]
          exact List.mem_cons_of_mem _ (ih r fs m hm hmatch)
        · rw [if_neg hh]
          simp only [List.nil_append]
          exact ih r fs m hm hmatch

theorem outLoop_outs_from_names (f : String → Int → List String → Res)
    (path : String) (cfg : Cfg)
    (hf : ∀ a r fs, ∀ o ∈ (f a r fs).outs,
      ∃ q m, o = joinPath q m ∧ unsafePath m = false) :
    ∀ (ns : List String) (r : Int) (fs : List String),
      (∀ n ∈ ns, unsafePath n = false) →
      ∀ o ∈ (outLoop f path cfg ns r fs).outs,
        ∃ q m, o = joinPath q m ∧ unsafePath m = false := by
  intro ns
  induction ns with
  | nil => intro r fs _ o ho; simp [outLoop] at ho
  | cons n ns ih =>
    intro r fs hsafe o ho
    have hn : unsafePath n = false := hsafe n (List.mem_cons_self _ _)
    have hns : ∀ x ∈ ns, unsafePath x = false :=
      fun x hx => hsafe x (List.mem_cons_of_mem _ hx)
    by_cases hc : r ≠ 0 ∧ isArchiveName (joinPath path n) = true
    · simp only [outLoop, if_pos hc] at ho
      rcases List.mem_append.mp ho with ho | ho
      · have : o = joinPath path n := by
          revert ho
          split
          · intro ho
            rcases List.mem_singleton.mp ho with h
            exact h
          · intro ho; simp at ho
        exact ⟨path, n, this, hn⟩
      · rcases List.mem_append.mp ho with ho | ho
        · exact hf _ _ _ o ho
        · exact ih _ _ hns o ho
    · simp only [outLoop, if_neg hc] at ho
      rcases List.mem_append.mp ho with ho | ho
      · have : o = joinPath path n := by
          revert ho
          split
          · intro ho
            rcases List.mem_singleton.mp ho with h
            exact h
          · intro ho; simp at ho
        exact ⟨path, n, this, hn⟩
      · exact ih _ _ hns o ho

/-- With `safe` true, every path in the output of an entire call tree is
the joined path of some member that passed the safety filter. -/
theorem extractA_outs_safe (cfg : Cfg) (hsafe : cfg.safe = true) :
    ∀ (fuel : Nat) (w : World) (archive : String) (path? : Option String)
      (r : Int) (fs : List String),
      ∀ o ∈ (extractA fuel w archive path? cfg r fs).outs,
        ∃ q m, o = joinPath q m ∧ unsafePath m = false
  | 0, _, _, _, _, _ => by intro o ho; simp [extractA] at ho
  | Nat.succ fuel, w, archive, path?, r, fs => by
    intro o ho
    rw [extractA] at ho
    cases hop : openArchive w fs archive with
    | error e => rw [hop] at ho; simp at ho
    | ok names0 =>
      rw [hop] at ho
      simp only [extractBody] at ho
      exact outLoop_outs_from_names _ _ cfg
        (fun a r2 f2 => extractA_outs_safe cfg hsafe fuel w a none r2 f2)
        (keptNames cfg names0) r _
        (fun n hn => keptNames_all_safe cfg names0 hsafe n hn) o ho

theorem outLoop_no_warns (f : String → Int → List String → Res)
    (path : String) (cfg : Cfg)
    (hf : ∀ a r fs, (f a r fs).warns = []) :
    ∀ (ns : List String) (r : Int) (fs : List String),
      (outLoop f path cfg ns r fs).warns = [] := by
  intro ns
  induction ns with
  | nil => intro r fs; simp [outLoop]
  | cons n ns ih =>
    intro r fs
    by_cases hc : r ≠ 0 ∧ isArchiveName (joinPath path n) = true
    · simp only [outLoop, if_pos hc]
      rw [hf, ih]
      rfl
    · simp only [outLoop, if_neg hc]
      exact ih r fs

/-- With `safe` false, no warning is ever logged anywhere in the call
tree. -/
theorem extractA_no_warns (cfg : Cfg) (hsafe : cfg.safe = false) :
    ∀ (fuel : Nat) (w : World) (archive : String) (path? : Option String)
      (r : Int) (fs : List String),
      (extractA fuel w archive path? cfg r fs).warns = []
  | 0, _, _, _, _, _ => by simp [extractA]
  | Nat.succ fuel, w, archive, path?, r, fs => by
    rw [extractA]
    cases hop : openArchive w fs archive with
    | error e => rfl
    | ok names0 =>
      simp only [extractBody]
      rw [outLoop_no_warns _ _ cfg
        (fun a r2 f2 => extractA_no_warns cfg hsafe fuel w a none r2 f2)]
      unfold levelWarns
      rw [hsafe]
      rfl

/-! ## Claim C7 -/

/-- Claim C7 counterexample: the claim determines `extension` completely,
but on `"..hidden"` the claimed value is `"hidden"` (the segment has a dot
and its dots are not a single leading one) while the code returns `""`
(Python's `splitext` treats every leading dot of the basename as
non-extension material). -/
theorem C7_counterexample :
    extension "..hidden" = "" ∧ claimExtensionOf "..hidden" = "hidden" ∧
      extension "..hidden" ≠ claimExtensionOf "..hidden" := by
  refine ⟨by decide, by decide, by decide⟩

/-- Claim C7, amended: `extension` returns the lowercase text after the
last `.` of the final path segment, and the empty string when the segment
has no `.` apart from its leading (POSIX hidden-file) dots; in particular
the three examples of the claim hold. -/
theorem C7_extension_amended :
    (∀ p : String, extension p = specExtensionOf p) ∧
      extension "A.JPG" = "jpg" ∧ extension "noext" = "" ∧
      extension ".hidden" = "" := by
  exact ⟨extension_eq_specExtensionOf, by decide, by decide, by decide⟩

/-! ## Claim C5 -/

/-- Claim C5 counterexample: a file whose content fails both signature
checks is not always rejected as `UnsupportedFormat`: when it is
`.rar`-named, no backend has been loaded yet and none can be imported,
`ArchiveFile.__new__` raises from inside `import_rarfile`
(missing-support), not the `errmsg` unsupported-format error. -/
theorem C5_counterexample :
    (archiveFileNew false false ⟨"fake.rar", false, false⟩).1 =
      Except.error ArchiveError.missingSupport ∧
    ArchiveError.missingSupport ≠ ArchiveError.unsupportedFormat := by
  refine ⟨rfl, by decide⟩

/-- Claim C5, amended: the choice of variant is made by content sniffing
alone — a ZIP variant is returned only when the ZIP signature check
passes, a RAR variant only when the RAR signature check passes — and a
file whose content fails both checks is always rejected with a hard
error: `UnsupportedFormat`, except that a `.rar`-named file is rejected
as missing-support when no RAR backend has been loaded and none can be
imported. -/
theorem C5_archiveFileNew_amended (backendOk rarLoaded : Bool) (f : AFile) :
    ((archiveFileNew backendOk rarLoaded f).1 = Except.ok ArchiveKind.zip →
      f.isZipContent = true) ∧
    ((archiveFileNew backendOk rarLoaded f).1 = Except.ok ArchiveKind.rar →
      f.isRarContent = true) ∧
    (f.isZipContent = false → f.isRarContent = false →
      (archiveFileNew backendOk rarLoaded f).1 =
        Except.error
          (if rarLoaded = false ∧ rarNamed f.name = true ∧ backendOk = false
           then ArchiveError.missingSupport
           else ArchiveError.unsupportedFormat)) := by
  obtain ⟨nm, z, r⟩ := f
  cases z <;> cases rarLoaded <;> cases backendOk <;> cases r <;>
    by_cases hn : rarNamed nm = true <;>
      simp_all [archiveFileNew]

/-- Witness for C5's amended theorem: with a backend importable, the
`.rar`-named file with non-archive content is rejected as
unsupported-format. -/
theorem C5_witness :
    (archiveFileNew true false ⟨"fake.rar", false, false⟩).1 =
      Except.error ArchiveError.unsupportedFormat := by
  have h := (C5_archiveFileNew_amended true false ⟨"fake.rar", false, false⟩).2.2
    rfl rfl
  simpa using h

/-! ## Directory-model lemmas (claim C8) -/

theorem makedirs_dirs (p : List String) (fs : DirFS) :
    ∃ added, (makedirs p fs).2.dirs = fs.dirs ++ added ∧ ∀ q ∈ added, q <+: p := by
  refine ⟨_, rfl, ?_⟩
  intro q hq
  rw [List.mem_filter] at hq
  obtain ⟨hq1, _⟩ := hq
  rw [List.mem_append] at hq1
  rcases hq1 with hq1 | hq1
  · unfold properPrefixes at hq1
    rw [List.mem_filter] at hq1
    obtain ⟨hq2, _⟩ := hq1
    rw [List.mem_map] at hq2
    obtain ⟨k, _, hk⟩ := hq2
    rw [← hk]; exact List.take_prefix k p
  · rw [List.mem_singleton] at hq1
    rw [hq1]

theorem rmdir_some {d : List String} {fs fs2 : DirFS}
    (h : rmdir d fs = some fs2) :
    fs2.dirs = fs.dirs.filter (fun q => decide (q ≠ d)) ∧ fs2.files = fs.files := by
  unfold rmdir at h
  by_cases hc : d ∈ fs.dirs ∧ dirNonempty fs d = false
  · rw [if_pos hc] at h; cases h; exact ⟨rfl, rfl⟩
  · rw [if_neg hc] at h; cases h

theorem removeChain_mem {x : List String} :
    ∀ (ds : List (List String)) (fs : DirFS), x ∈ fs.dirs → x ∉ ds →
      x ∈ (removeChain fs ds).dirs
  | [], _, hx, _ => hx
  | d :: ds, fs, hx, hnd => by
    unfold removeChain
    cases hr : rmdir d fs with
    | none => exact hx
    | some fs2 =>
      apply removeChain_mem ds fs2 _ (fun h => hnd (List.mem_cons_of_mem _ h))
      rw [(rmdir_some hr).1, List.mem_filter]
      refine ⟨hx, ?_⟩
      simp only [decide_eq_true_eq]
      intro he
      exact hnd (by rw [he]; exact List.mem_cons_self _ _)

theorem removeChain_subset {x : List String} :
    ∀ (ds : List (List String)) (fs : DirFS),
      x ∈ (removeChain fs ds).dirs → x ∈ fs.dirs
  | [], _, hx => hx
  | d :: ds, fs, hx => by
    rw [removeChain] at hx
    cases hr : rmdir d fs with
    | none => rw [hr] at hx; exact hx
    | some fs2 =>
      rw [hr] at hx
      have h2 := removeChain_subset ds fs2 hx
      rw [(rmdir_some hr).1] at h2
      exact (List.mem_filter.mp h2).1

theorem parentChain_below (p : List String) :
    ∀ d ∈ parentChain p, d <+: p := by
  intro d hd
  unfold parentChain at hd
  rw [List.mem_map] at hd
  obtain ⟨k, _, hk⟩ := hd
  rw [← hk]; exact List.take_prefix k p

theorem removedirsSwallowed_mem {x p : List String} {fs : DirFS}
    (hx : x ∈ fs.dirs) (hnp : ¬ x <+: p) :
    x ∈ (removedirsSwallowed p fs).dirs := by
  unfold removedirsSwallowed
  cases hr : rmdir p fs with
  | none => exact hx
  | some fs2 =>
    apply removeChain_mem (parentChain p) fs2
    · rw [(rmdir_some hr).1, List.mem_filter]
      refine ⟨hx, ?_⟩
      simp only [decide_eq_true_eq]
      intro he
      exact hnp (by rw [he])
    · intro hmem
      exact hnp (parentChain_below p x hmem)

/-! ## Claim C8 -/

/-- Claim C8 counterexample: destination `a/b` with `a` a pre-existing
empty directory.  This call creates only `a/b`; on extraction failure
`os.removedirs("a/b")` removes `a/b` and then cascades into the
pre-existing `a` and removes it too — a directory that already existed
before the call is not left alone, and more than a single
empty-directory removal happens. -/
theorem C8_counterexample :
    (["a"] ∈ (⟨[["a"]], []⟩ : DirFS).dirs) ∧
    (extractPhase ["m"] ["a", "b"] [] false ⟨[["a"]], []⟩).2.dirs = [] := by
  refine ⟨by decide, by decide⟩

/-- Claim C8, amended: the destination tree is created only when at least
one member will be written; removal is attempted only on failure and only
when this very call created the destination leaf, it silently ignores
failure, and it never touches any directory that is not an ancestor of
(or equal to) the destination — but it is a cascading empty-directory
removal (`os.removedirs`), so besides the created leaf it may also remove
pre-existing ancestor directories that become empty. -/
theorem C8_extractPhase_amended (members : List String) (p : List String)
    (written : List (List String)) (ok : Bool) (fs : DirFS) :
    (members = [] → extractPhase members p written ok fs = (true, fs)) ∧
    (p ∈ fs.dirs →
      ∀ d ∈ fs.dirs, d ∈ (extractPhase members p written ok fs).2.dirs) ∧
    (∀ d ∈ fs.dirs, ¬ d <+: p →
      d ∈ (extractPhase members p written ok fs).2.dirs) ∧
    (members ≠ [] → ok = false → p ∉ fs.dirs →
      (∀ q ∈ fs.dirs, p <+: q → p = q) →
      (∀ q ∈ written, p <+: q → p = q) →
      (∀ q ∈ fs.files, p <+: q → p = q) →
      p ∉ (extractPhase members p written ok fs).2.dirs) := by
  have hsup : ∀ d ∈ fs.dirs, d ∈ (afterWrite p written fs).dirs := by
    intro d hd
    obtain ⟨added, heq, _⟩ := makedirs_dirs p fs
    show d ∈ (makedirs p fs).2.dirs
    rw [heq]
    exact List.mem_append_left _ hd
  refine ⟨?_, ?_, ?_, ?_⟩
  · intro hm
    unfold extractPhase
    rw [if_pos (by rw [hm]; rfl)]
  · intro hp d hd
    unfold extractPhase
    by_cases hm : members.isEmpty = true
    · rw [if_pos hm]; exact hd
    · rw [if_neg hm]
      have hcr : (makedirs p fs).1 = false := by
        show decide (p ∉ fs.dirs) = false
        simp [hp]
      by_cases hok : ok = true
      · rw [if_pos hok]; exact hsup d hd
      · rw [if_neg hok, hcr]
        simp only [Bool.false_eq_true, if_false]
        exact hsup d hd
  · intro d hd hnp
    unfold extractPhase
    by_cases hm : members.isEmpty = true
    · rw [if_pos hm]; exact hd
    · rw [if_neg hm]
      by_cases hok : ok = true
      · rw [if_pos hok]; exact hsup d hd
      · rw [if_neg hok]
        by_cases hcr : (makedirs p fs).1 = true
        · rw [hcr]
          simp only [if_true]
          exact removedirsSwallowed_mem (hsup d hd) hnp
        · have hcf : (makedirs p fs).1 = false := by
            revert hcr; cases (makedirs p fs).1 <;> simp
          rw [hcf]
          simp only [Bool.false_eq_true, if_false]
          exact hsup d hd
  · intro hm hok hp hdirs hwr hfiles
    unfold extractPhase
    rw [if_neg (by simpa [List.isEmpty_iff] using hm), hok]
    have hcr : (makedirs p fs).1 = true := by
      show decide (p ∉ fs.dirs) = true
      simp [hp]
    rw [hcr]
    simp only [Bool.false_eq_true, if_false, if_true]
    obtain ⟨added, heq, hpref⟩ := makedirs_dirs p fs
    have hpin : p ∈ (afterWrite p written fs).dirs := by
      show p ∈ fs.dirs ++
        ((properPrefixes p ++ [p]).filter (fun q => decide (q ∉ fs.dirs)))
      rw [List.mem_append, List.mem_filter]
      right
      refine ⟨List.mem_append_right _ (List.mem_singleton.mpr rfl), by simpa using hp⟩
    have hne : dirNonempty (afterWrite p written fs) p = false := by
      unfold dirNonempty
      rw [Bool.or_eq_false_iff]
      constructor
      · rw [List.any_eq_false]
        intro q hq hc
        rw [Bool.and_eq_true] at hc
        obtain ⟨h1, h2⟩ := hc
        have hpq : p <+: q := List.isPrefixOf_iff_prefix.mp h1
        have hqp : q ≠ p := by simpa using h2
        have hq' : q ∈ fs.dirs ++ added := by
          rw [← heq]; exact hq
        rcases List.mem_append.mp hq' with hq2 | hq2
        · exact hqp (hdirs q hq2 hpq).symm
        · exact hqp ((hpref q hq2).eq_of_length
            (Nat.le_antisymm (hpref q hq2).length_le hpq.length_le))
      · rw [List.any_eq_false]
        intro q hq hc
        rw [Bool.and_eq_true] at hc
        obtain ⟨h1, h2⟩ := hc
        have hpq : p <+: q := List.isPrefixOf_iff_prefix.mp h1
        have hqp : q ≠ p := by simpa using h2
        have hq2 : q ∈ fs.files ++ written := hq
        rcases List.mem_append.mp hq2 with hq3 | hq3
        · exact hqp (hfiles q hq3 hpq).symm
        · exact hqp (hwr q hq3 hpq).symm
    unfold removedirsSwallowed
    have hrm : rmdir p (afterWrite p written fs)
        = some ⟨((afterWrite p written fs).dirs).filter (fun q => decide (q ≠ p)),
                (afterWrite p written fs).files⟩ := by
      unfold rmdir
      rw [if_pos ⟨hpin, hne⟩]
    rw [hrm]
    intro hcon
    have h2 := removeChain_subset (parentChain p) _ hcon
    rw [List.mem_filter] at h2
    have h3 := h2.2
    simp at h3

/-- Witness for C8's amended theorem: a fresh destination `x` is created
(no member pre-exists), extraction fails writing nothing, and the
created leaf is removed again. -/
theorem C8_witness :
    (["m"] ≠ ([] : List String)) ∧
    (["x"] ∉ (⟨[], []⟩ : DirFS).dirs) ∧
    ["x"] ∉ (extractPhase ["m"] ["x"] [] false ⟨[], []⟩).2.dirs := by
  refine ⟨by decide, by decide, ?_⟩
  exact (C8_extractPhase_amended ["m"] ["x"] [] false ⟨[], []⟩).2.2.2
    (by decide) rfl (by decide) (by simp) (by simp) (by simp)

/-! ## Claim C1 -/

/-- Claim C1 counterexample: at the top level (`_root=True`), opening a
plain file renamed to `fake.rar` — unsupported in this world — does not
surface an error to the caller: the exception is caught (lines 117-123)
and the caller receives exactly the empty list. -/
theorem C1_counterexample :
    badWorld.arch "fake.rar" = Except.error () ∧
    extract_archive badWorld 5 "fake.rar" none ⟨[], true, false, true⟩ 1
      ["fake.rar"] = [] := by
  exact ⟨rfl, rfl⟩

/-- Claim C1, amended: an open failure (unsupported format, missing RAR
support, missing file) is caught at every level: the top-level caller
receives the empty list — not a hard failure — while a nested call
yields the empty list together with the budget it was handed, letting
sibling extraction continue. -/
theorem C1_open_failure_amended (w : World) (fuel : Nat) (archive : String)
    (path? : Option String) (cfg : Cfg) (r : Int) (fs : List String)
    (h : openArchive w fs archive = Except.error ()) :
    extract_archive w fuel archive path? cfg r fs = [] ∧
    extractA fuel w archive path? cfg r fs = ⟨[], r, fs, [], [], []⟩ := by
  have h2 := extractA_openFail fuel w archive path? cfg r fs h
  constructor
  · unfold extract_archive
    rw [h2]
  · exact h2

/-- Witness for C1's amended theorem at a concrete unsupported file. -/
theorem C1_witness :
    extract_archive badWorld 3 "plain.rar" none ⟨["srt"], true, false, true⟩
        2 ["plain.rar"] = [] ∧
    extractA 3 badWorld "plain.rar" none ⟨["srt"], true, false, true⟩ 2
        ["plain.rar"] = ⟨[], 2, ["plain.rar"], [], [], []⟩ :=
  C1_open_failure_amended badWorld 3 "plain.rar" none ⟨["srt"], true, false, true⟩
    2 ["plain.rar"] rfl

/-! ## Claim C2 -/

/-- Claim C2: for a top-level call with a non-negative budget, the
counter never becomes negative anywhere in the call tree — every
recorded recursive invocation is handed a non-negative budget (the
caller's budget at that point minus exactly one) and the returned budget
is non-negative — and budgets are exactly accounted: the returned budget
is the initial budget minus the total number of nested invocations, so
siblings at every depth draw from the one shared pool, adopted in
depth-first order. -/
theorem C2_budget_invariant (w : World) (fuel : Nat) (archive : String)
    (path? : Option String) (cfg : Cfg) (fs : List String) (r : Int)
    (h : 0 ≤ r) :
    (∀ pb ∈ (extractA fuel w archive path? cfg r fs).trace, 0 ≤ pb.2) ∧
    0 ≤ (extractA fuel w archive path? cfg r fs).budget ∧
    (extractA fuel w archive path? cfg r fs).budget
      = r - (extractA fuel w archive path? cfg r fs).trace.length := by
  obtain ⟨h1, h2⟩ := extractA_nonneg fuel w archive path? cfg r fs h
  exact ⟨h2, h1, extractA_budget_law fuel w archive path? cfg r fs⟩

/-- Witness for C2 on the nested demo world with budget 1. -/
theorem C2_witness :
    0 ≤ (1 : Int) ∧
    ((∀ pb ∈ (extractA 3 demoWorld "top.zip" none ⟨[], true, false, true⟩ 1
        ["top.zip"]).trace, 0 ≤ pb.2) ∧
      0 ≤ (extractA 3 demoWorld "top.zip" none ⟨[], true, false, true⟩ 1
        ["top.zip"]).budget ∧
      (extractA 3 demoWorld "top.zip" none ⟨[], true, false, true⟩ 1
          ["top.zip"]).budget
        = 1 - (extractA 3 demoWorld "top.zip" none ⟨[], true, false, true⟩ 1
            ["top.zip"]).trace.length) :=
  ⟨by decide,
    C2_budget_invariant demoWorld 3 "top.zip" none ⟨[], true, false, true⟩
      ["top.zip"] 1 (by decide)⟩

/-! ## Claim C6 -/

/-- Claim C6: with `recursion = 0`, no nested archive is ever opened —
the trace of recursive invocations is empty for every world, every
archive, every flag combination and every nesting depth. -/
theorem C6_zero_budget_no_recursion (w : World) (fuel : Nat)
    (archive : String) (path? : Option String) (cfg : Cfg)
    (fs : List String) :
    (extractA fuel w archive path? cfg 0 fs).trace = [] := by
  have h1 := extractA_budget_law fuel w archive path? cfg 0 fs
  have h2 := (extractA_nonneg fuel w archive path? cfg 0 fs le_rfl).1
  have hlen : (extractA fuel w archive path? cfg 0 fs).trace.length = 0 := by
    omega
  exact List.length_eq_zero.mp hlen

/-! ## Claim C10 -/

/-- Claim C10: a nested call whose archive fails to open returns the
empty list together with the budget it was handed (already decremented
by the parent), and the parent carries exactly that decremented budget
to the remaining siblings: an unopenable nested archive permanently
consumes one unit of the shared budget while contributing no files, no
warnings and no writes. -/
theorem C10_nested_failure_consumes_budget (w : World) (fuel : Nat)
    (path : String) (cfg : Cfg) (n : String) (ns : List String)
    (r : Int) (fs : List String)
    (hr : r ≠ 0) (hn : isArchiveName (joinPath path n) = true)
    (hfail : openArchive w fs (joinPath path n) = Except.error ()) :
    extractA fuel w (joinPath path n) none cfg (r - 1) fs
        = ⟨[], r - 1, fs, [], [], []⟩ ∧
    outLoop (fun a r2 f2 => extractA fuel w a none cfg r2 f2) path cfg
        (n :: ns) r fs
      = ⟨(if matchesExtlist cfg.extlist (extension (joinPath path n)) = true
            then [joinPath path n] else []) ++
          (outLoop (fun a r2 f2 => extractA fuel w a none cfg r2 f2)
            path cfg ns (r - 1) fs).outs,
         (outLoop (fun a r2 f2 => extractA fuel w a none cfg r2 f2)
           path cfg ns (r - 1) fs).budget,
         (outLoop (fun a r2 f2 => extractA fuel w a none cfg r2 f2)
           path cfg ns (r - 1) fs).fs,
         (joinPath path n, r - 1) ::
           (outLoop (fun a r2 f2 => extractA fuel w a none cfg r2 f2)
             path cfg ns (r - 1) fs).trace,
         (outLoop (fun a r2 f2 => extractA fuel w a none cfg r2 f2)
           path cfg ns (r - 1) fs).warns,
         (outLoop (fun a r2 f2 => extractA fuel w a none cfg r2 f2)
           path cfg ns (r - 1) fs).written⟩ := by
  have hchild := extractA_openFail fuel w (joinPath path n) none cfg (r - 1)
    fs hfail
  have hcond : r ≠ 0 ∧ isArchiveName (joinPath path n) = true := ⟨hr, hn⟩
  refine ⟨hchild, ?_⟩
  simp only [outLoop, if_pos hcond, hchild]
  simp only [List.nil_append]

/-- Witness for C10: `t.zip` lists `bad.zip` (unopenable) before
`b.srt`; the nested call returns no files and the handed budget. -/
theorem C10_witness :
    extractA 2 failWorld (joinPath "t" "bad.zip") none
        ⟨[], true, false, true⟩ ((1 : Int) - 1) ["t.zip"]
      = ⟨[], (1 : Int) - 1, ["t.zip"], [], [], []⟩ :=
  (C10_nested_failure_consumes_budget failWorld 2 "t" ⟨[], true, false, true⟩
    "bad.zip" ["b.srt"] 1 ["t.zip"] (by decide) (by decide) rfl).1

/-! ## Claim C9 -/

/-- Claim C9: with `overwrite` false (and the archive kept, so that the
second call sees the same valid input), running the same extraction
twice yields an identical result list on the second run, and the second
run writes only files that did not yet exist when it started — no file
is ever re-written. -/
theorem C9_idempotent (w : World) (fuel : Nat) (archive : String)
    (path? : Option String) (extlist : List String) (safe : Bool)
    (r : Int) (fs : List String) :
    (extractA fuel w archive path? ⟨extlist, true, false, safe⟩ r
        (extractA fuel w archive path? ⟨extlist, true, false, safe⟩ r
          fs).fs).outs
      = (extractA fuel w archive path? ⟨extlist, true, false, safe⟩ r
          fs).outs ∧
    ∀ p ∈ (extractA fuel w archive path? ⟨extlist, true, false, safe⟩ r
        (extractA fuel w archive path? ⟨extlist, true, false, safe⟩ r
          fs).fs).written,
      p ∉ (extractA fuel w archive path? ⟨extlist, true, false, safe⟩ r
        fs).fs := by
  refine ⟨?_, fun p hp =>
    extractA_written ⟨extlist, true, false, safe⟩ rfl rfl fuel w archive
      path? r _ p hp⟩
  by_cases hin : archive ∈ fs
  · have hin2 : archive ∈ (extractA fuel w archive path?
        ⟨extlist, true, false, safe⟩ r fs).fs :=
      extractA_mono ⟨extlist, true, false, safe⟩ rfl fuel w archive path?
        r fs hin
    exact (extractA_obsEq ⟨extlist, true, false, safe⟩ rfl fuel w archive
      path? r _ fs ⟨fun _ => hin, fun _ => hin2⟩).1
  · have hfail : openArchive w fs archive = Except.error () := by
      unfold openArchive
      rw [if_neg hin]
    have h1 := extractA_openFail fuel w archive path?
      ⟨extlist, true, false, safe⟩ r fs hfail
    have hfs : (extractA fuel w archive path? ⟨extlist, true, false, safe⟩
        r fs).fs = fs := by
      rw [h1]
    rw [hfs]

/-- Witness for C9 on the nested demo world. -/
theorem C9_witness :
    (extractA 3 demoWorld "top.zip" none ⟨["srt"], true, false, true⟩ 1
        (extractA 3 demoWorld "top.zip" none ⟨["srt"], true, false, true⟩ 1
          ["top.zip"]).fs).outs
      = (extractA 3 demoWorld "top.zip" none ⟨["srt"], true, false, true⟩ 1
          ["top.zip"]).outs :=
  (C9_idempotent demoWorld 3 "top.zip" none ["srt"] true 1 ["top.zip"]).1

/-! ## Claim C3 -/

/-- Claim C3: the safety filter drops a member exactly when its path
starts with `/`, starts with `../`, or contains `/../` (that is the
definition of `unsafePath`, mirroring line 139).  With `safe` true each
unsafe member is excluded from the extraction member set and from the
output listing (every listed path is the joined path of a member that
passed the filter), one warning is logged per dropped member (the
level's warnings come first, in member order), and extraction of the
remaining members continues: every safe member passing the extension
filter is still listed.  With `safe` false nothing is filtered: no
warning is logged anywhere and every member passing the extension
filter is listed, unsafe or not. -/
theorem C3_safe_filter (w : World) (fuel : Nat) (archive : String)
    (path? : Option String) (cfg : Cfg) (r : Int) (fs : List String)
    (names0 : List String)
    (hopen : openArchive w fs archive = Except.ok names0) :
    (cfg.safe = true →
      (∀ n ∈ names0, unsafePath n = true →
        n ∉ selectMembers (resolvePath path? archive) cfg fs
            (keptNames cfg names0) r) ∧
      (∀ o ∈ (extractA (fuel + 1) w archive path? cfg r fs).outs,
        ∃ q m, o = joinPath q m ∧ unsafePath m = false) ∧
      names0.filter (fun n => unsafePath n)
        <+: (extractA (fuel + 1) w archive path? cfg r fs).warns ∧
      (∀ n ∈ names0, unsafePath n = false →
        matchesExtlist cfg.extlist
          (extension (joinPath (resolvePath path? archive) n)) = true →
        joinPath (resolvePath path? archive) n
          ∈ (extractA (fuel + 1) w archive path? cfg r fs).outs)) ∧
    (cfg.safe = false →
      (extractA (fuel + 1) w archive path? cfg r fs).warns = [] ∧
      (∀ n ∈ names0,
        matchesExtlist cfg.extlist
          (extension (joinPath (resolvePath path? archive) n)) = true →
        joinPath (resolvePath path? archive) n
          ∈ (extractA (fuel + 1) w archive path? cfg r fs).outs)) := by
  have heq := extractA_succ_ok fuel w archive path? cfg r fs names0 hopen
  constructor
  · intro hsafe
    refine ⟨?_, ?_, ?_, ?_⟩
    · intro n hn huns hmem
      exact keptNames_unsafe_not_mem cfg names0 hsafe n huns
        (selectMembers_subset _ cfg fs _ r hmem)
    · exact fun o ho => extractA_outs_safe cfg hsafe (fuel + 1) w archive
        path? r fs o ho
    · rw [heq]
      simp only [extractBody]
      have hlw : levelWarns cfg names0
          = names0.filter (fun n => unsafePath n) := by
        unfold levelWarns
        rw [hsafe]
        rfl
      rw [hlw]
      exact List.prefix_append _ _
    · intro n hn hsafe2 hmatch
      rw [heq]
      simp only [extractBody]
      exact outLoop_mem_outs _ _ cfg (keptNames cfg names0) r _ n
        (keptNames_safe_mem cfg names0 hsafe n hn hsafe2) hmatch
  · intro hsafe
    refine ⟨?_, ?_⟩
    · exact extractA_no_warns cfg hsafe (fuel + 1) w archive path? r fs
    · intro n hn hmatch
      rw [heq]
      simp only [extractBody]
      have hkept : n ∈ keptNames cfg names0 := by
        unfold keptNames
        rw [hsafe]
        simpa using hn
      exact outLoop_mem_outs _ _ cfg (keptNames cfg names0) r _ n hkept
        hmatch

/-- Witness for C3 on the world whose archive holds an unsafe member:
the warning is logged first and the safe sibling is still listed. -/
theorem C3_witness :
    ["../evil"] <+: (extractA 2 unsafeWorld "t.zip" none
        ⟨[], true, false, true⟩ 1 ["t.zip"]).warns ∧
    "t/ok.srt" ∈ (extractA 2 unsafeWorld "t.zip" none
        ⟨[], true, false, true⟩ 1 ["t.zip"]).outs := by
  have h := (C3_safe_filter unsafeWorld 1 "t.zip" none
    ⟨[], true, false, true⟩ 1 ["t.zip"] ["../evil", "ok.srt", "sub/a.txt"]
    rfl).1 rfl
  constructor
  · have h3 := h.2.2.1
    simpa using h3
  · have h4 := h.2.2.2 "ok.srt" (by decide) (by decide) (by decide)
    simpa using h4

/-! ## Claim C4 -/

/-- Claim C4 counterexample: with `extlist = ["zip"]` the member
`inner.zip` matches the extension filter, yet the call still recurses
into it (the trace records the descent): listing (line 172) and descent
(line 175) are two independent `if`s, not an if/else. -/
theorem C4_counterexample :
    extension "top/inner.zip" = "zip" ∧ "zip" ∈ ["zip"] ∧
    (extractA 3 demoWorld "top.zip" none ⟨["zip"], true, false, true⟩ 1
        ["top.zip"]).trace = [("top/inner.zip", 0)] ∧
    (extractA 3 demoWorld "top.zip" none ⟨["zip"], true, false, true⟩ 1
        ["top.zip"]).outs = ["top/inner.zip"] := by
  refine ⟨by decide, by decide, rfl, rfl⟩

/-- Claim C4, amended: a member's output path is added to the result
list when its extension matches `extlist` (or `extlist` is empty) — and,
independently of that match, a zip/rar member is recursed into whenever
the remaining budget at its turn is non-zero; in particular the first
member is recursed into with budget `r - 1` even when its extension
matches `extlist`. -/
theorem C4_listing_and_descent_amended (w : World) (fuel : Nat)
    (archive : String) (path? : Option String) (cfg : Cfg) (r : Int)
    (fs : List String) (names0 : List String) (n : String)
    (ns : List String)
    (hopen : openArchive w fs archive = Except.ok names0)
    (hkept : keptNames cfg names0 = n :: ns)
    (hr : r ≠ 0)
    (hz : isArchiveName (joinPath (resolvePath path? archive) n) = true) :
    (∀ m ∈ keptNames cfg names0,
      matchesExtlist cfg.extlist
        (extension (joinPath (resolvePath path? archive) m)) = true →
      joinPath (resolvePath path? archive) m
        ∈ (extractA (fuel + 1) w archive path? cfg r fs).outs) ∧
    (joinPath (resolvePath path? archive) n, r - 1)
      ∈ (extractA (fuel + 1) w archive path? cfg r fs).trace := by
  have heq := extractA_succ_ok fuel w archive path? cfg r fs names0 hopen
  constructor
  · intro m hm hmatch
    rw [heq]
    simp only [extractBody]
    exact outLoop_mem_outs _ _ cfg (keptNames cfg names0) r _ m hm hmatch
  · rw [heq]
    simp only [extractBody]
    rw [hkept]
    have hcond : r ≠ 0 ∧
        isArchiveName (joinPath (resolvePath path? archive) n) = true :=
      ⟨hr, hz⟩
    simp only [outLoop, if_pos hcond]
    exact List.mem_cons_self _ _

/-- Witness for C4's amended theorem: the matching `inner.zip` is both
listable and recursed into with budget 0. -/
theorem C4_witness :
    (joinPath (resolvePath none "top.zip") "inner.zip", (1 : Int) - 1)
      ∈ (extractA (2 + 1) demoWorld "top.zip" none
          ⟨["zip"], true, false, true⟩ 1 ["top.zip"]).trace :=
  (C4_listing_and_descent_amended demoWorld 2 "top.zip" none
    ⟨["zip"], true, false, true⟩ 1 ["top.zip"] ["inner.zip"] "inner.zip" []
    rfl rfl (by decide) (by decide)).2

end Ltv
